import Mathlib

/-!
Verification of the ftabi ABI codec (`src/ftabi/Abi.hpp`).

The repository ships the class declarations in `Abi.hpp`; several function
bodies (`pack_cells_into_chain`, `fill_signature`, `compute_function_id`,
the scalar `serialize`/`deserialize` implementations) are declared there but
their translation units are not part of the source tree.  Those operations
are modelled from the specification, as marked in their doc comments.
Everything else (`type_signature`, `bit_len`, `default_value`, `check_type`,
`to_string(AccountState)`) is translated directly from the header's inline
bodies.
-/

set_option maxRecDepth 10000

namespace ftabi

/-- Modelled from the spec (§6, cell primitive contract): a cell is a tree
node holding ordered data bits and ordered child references.  The bound of
1023 bits and 4 references is an invariant to be proved, not baked into the
type. -/
inductive Cell where
  | mk (bits : List Bool) (refs : List Cell)

def Cell.bits : Cell → List Bool
  | .mk b _ => b

def Cell.refs : Cell → List Cell
  | .mk _ r => r

/-- A read cursor over a cell's bits and references (the spec's
slice/cursor, §Glossary). -/
structure Slice where
  bits : List Bool
  refs : List Cell

def loadCell (c : Cell) : Slice := ⟨c.bits, c.refs⟩

/-- Merge a run of builder cells into one physical cell: bits and
references are concatenated in order (spec §4.3). -/
def mergeCells (cs : List Cell) : Cell :=
  .mk (cs.map Cell.bits).flatten (cs.map Cell.refs).flatten

/-- Modelled from the spec (§4.3): the next field cell fits into the cell
under construction when the combined bits stay within 1023 and the combined
references leave one slot free for the chaining reference. -/
def fitsWith (cur c : Cell) : Bool :=
  decide (cur.bits.length + c.bits.length ≤ 1023) &&
    decide (cur.refs.length + c.refs.length + 1 ≤ 4)

/-- Modelled from the spec (§4.3): greedy grouping pass of the chain
packer.  `chunk` is the run of field cells merged so far into the physical
cell under construction and `cur` is their merge; a field that does not fit
closes the run and opens a new one. -/
def packPartitionGo (chunk : List Cell) (cur : Cell) : List Cell → List (List Cell)
  | [] => [chunk]
  | c :: rest =>
    if fitsWith cur c then
      packPartitionGo (chunk ++ [c]) (.mk (cur.bits ++ c.bits) (cur.refs ++ c.refs)) rest
    else
      chunk :: packPartitionGo [c] c rest

def packPartition : List Cell → List (List Cell)
  | [] => []
  | c :: cs => packPartitionGo [c] c cs

/-- Modelled from the spec (§4.3): linking pass of the chain packer.  Each
physical cell except the last receives one forward reference to the next;
if no reference slot is free this is the structural layout error. -/
def linkGroups : List Cell → Except String Cell
  | [] => .ok (.mk [] [])
  | [g] => .ok g
  | g :: g₂ :: gs =>
    (linkGroups (g₂ :: gs)).bind fun tail =>
      if g.refs.length + 1 ≤ 4 then .ok (.mk g.bits (g.refs ++ [tail]))
      else .error "cannot reserve a reference slot for chaining"

/-- Modelled from the spec (§4.3): `pack_cells_into_chain` — body absent
from src (declared at Abi.hpp:433).  Merges as many leading cells as fit
into one physical cell bounded by 1023 data bits and 4 references, then
links the physical cells into a singly-linked chain through a reserved
forward reference. -/
def pack_cells_into_chain (cells : List Cell) : Except String Cell :=
  linkGroups ((packPartition cells).map mergeCells)

/-- The list of physical cells of the finished chain, in chain order: every
cell but the last carries the forward reference to its successor appended
after its payload references. -/
def linkAll : List Cell → List Cell
  | [] => []
  | [g] => [g]
  | g :: g₂ :: gs =>
    .mk g.bits (g.refs ++ [(linkAll (g₂ :: gs)).headD (.mk [] [])]) :: linkAll (g₂ :: gs)

def cellShape (c : Cell) : Nat × Nat := (c.bits.length, c.refs.length)

def cellData (c : Cell) : List Bool × List Cell := (c.bits, c.refs)

/-- Modelled from the spec (§4.2, reference-following rule): schema-driven
decoding of a field sequence from a chained cell.  Each field reads its
declared number of bits and references; after a field that is not the last
one, a cursor whose data is exhausted and which holds exactly one remaining
reference advances into that forward reference. -/
def decodeFields : List (Nat × Nat) → Slice → Option (List (List Bool × List Cell))
  | [], _ => some []
  | (nb, nr) :: rest, s =>
    if nb ≤ s.bits.length ∧ nr ≤ s.refs.length then
      let s₁ : Slice := ⟨s.bits.drop nb, s.refs.drop nr⟩
      let s₂ : Slice :=
        if rest ≠ [] ∧ s₁.bits = [] ∧ s₁.refs.length = 1 then
          loadCell (s₁.refs.headD (.mk [] []))
        else s₁
      (decodeFields rest s₂).map fun tailVals => (s.bits.take nb, s.refs.take nr) :: tailVals
    else none

/-- The forward-reference list hanging off the current physical cell: empty
for the last cell of the chain, otherwise the single reference to the rest
of the chain. -/
def contRef (part : List (List Cell)) : List Cell :=
  match part with
  | [] => []
  | _ :: _ => [(linkAll (part.map mergeCells)).headD (.mk [] [])]

@[simp] theorem contRef_nil : contRef [] = [] := rfl

@[simp] theorem contRef_cons (ch : List Cell) (part' : List (List Cell)) :
    contRef (ch :: part') =
      [(linkAll ((ch :: part').map mergeCells)).headD (.mk [] [])] := rfl

@[simp] theorem Cell.bits_mk (b : List Bool) (r : List Cell) : (Cell.mk b r).bits = b := rfl

@[simp] theorem Cell.refs_mk (b : List Bool) (r : List Cell) : (Cell.mk b r).refs = r := rfl

theorem Cell.eta (c : Cell) : Cell.mk c.bits c.refs = c := by cases c <;> rfl

@[simp] theorem mergeCells_bits (cs : List Cell) :
    (mergeCells cs).bits = (cs.map Cell.bits).flatten := rfl

@[simp] theorem mergeCells_refs (cs : List Cell) :
    (mergeCells cs).refs = (cs.map Cell.refs).flatten := rfl

theorem mergeCells_singleton (c : Cell) : mergeCells [c] = c := by
  cases c <;> simp [mergeCells]

theorem mergeCells_append_one (l : List Cell) (c : Cell) :
    mergeCells (l ++ [c]) =
      .mk ((mergeCells l).bits ++ c.bits) ((mergeCells l).refs ++ c.refs) := by
  simp [mergeCells]

theorem packPartitionGo_flatten (cs : List Cell) :
    ∀ (chunk : List Cell) (cur : Cell),
      (packPartitionGo chunk cur cs).flatten = chunk ++ cs := by
  induction cs with
  | nil => intro chunk cur; simp [packPartitionGo]
  | cons c rest ih =>
    intro chunk cur
    by_cases h : fitsWith cur c = true
    · simp [packPartitionGo, h, ih]
    · simp [packPartitionGo, h, ih]

theorem packPartitionGo_ne_nil (cs : List Cell) (chunk : List Cell) (cur : Cell) :
    packPartitionGo chunk cur cs ≠ [] := by
  cases cs with
  | nil => simp [packPartitionGo]
  | cons c rest =>
    by_cases h : fitsWith cur c = true <;> simp [packPartitionGo, h] <;>
      intro hcontra <;> exact absurd hcontra (by simp [packPartitionGo_ne_nil])

theorem packPartitionGo_chunks_ne_nil (cs : List Cell) :
    ∀ (chunk : List Cell) (cur : Cell), chunk ≠ [] →
      ∀ ch ∈ packPartitionGo chunk cur cs, ch ≠ [] := by
  induction cs with
  | nil => intro chunk cur hch ch hmem; simp [packPartitionGo] at hmem; simpa [hmem]
  | cons c rest ih =>
    intro chunk cur hch ch hmem
    by_cases h : fitsWith cur c = true
    · simp [packPartitionGo, h] at hmem
      exact ih _ _ (by simp) ch hmem
    · simp [packPartitionGo, h] at hmem
      rcases hmem with hmem | hmem
      · simpa [hmem]
      · exact ih [c] c (by simp) ch hmem

theorem packPartitionGo_bounds (cs : List Cell) :
    ∀ (chunk : List Cell) (cur : Cell), cur = mergeCells chunk →
      cur.bits.length ≤ 1023 → cur.refs.length ≤ 4 →
      (∀ c ∈ cs, c.bits.length ≤ 1023 ∧ c.refs.length ≤ 4) →
      ∀ ch ∈ packPartitionGo chunk cur cs,
        (mergeCells ch).bits.length ≤ 1023 ∧ (mergeCells ch).refs.length ≤ 4 := by
  induction cs with
  | nil =>
    intro chunk cur hcur hb hr _ ch hmem
    simp [packPartitionGo] at hmem
    subst hmem
    rw [← hcur]
    exact ⟨hb, hr⟩
  | cons c rest ih =>
    intro chunk cur hcur hb hr hcs ch hmem
    by_cases h : fitsWith cur c = true
    · simp [packPartitionGo, h] at hmem
      have hfit : cur.bits.length + c.bits.length ≤ 1023 ∧
          cur.refs.length + c.refs.length + 1 ≤ 4 := by
        simpa [fitsWith] using h
      refine ih (chunk ++ [c]) _ ?_ ?_ ?_ (fun x hx => hcs x (by simp [hx])) ch hmem
      · rw [mergeCells_append_one, ← hcur]
      · simpa using hfit.1
      · simp; omega
    · simp [packPartitionGo, h] at hmem
      rcases hmem with hmem | hmem
      · subst hmem; rw [← hcur]; exact ⟨hb, hr⟩
      · refine ih [c] c (mergeCells_singleton c).symm ?_ ?_
          (fun x hx => hcs x (by simp [hx])) ch hmem
        · exact (hcs c (by simp)).1
        · exact (hcs c (by simp)).2

theorem linkGroups_ok_head (gs : List Cell) :
    ∀ root, linkGroups gs = .ok root → root = (linkAll gs).headD (.mk [] []) := by
  induction gs with
  | nil => intro root h; simp [linkGroups] at h; simp [linkAll, ← h]
  | cons g gs ih =>
    intro root h
    cases gs with
    | nil => simp [linkGroups] at h; simp [linkAll, ← h]
    | cons g₂ gs' =>
      simp only [linkGroups, Except.bind] at h
      cases htail : linkGroups (g₂ :: gs') with
      | error e => rw [htail] at h; simp at h
      | ok tail =>
        rw [htail] at h
        simp at h
        by_cases hle : g.refs.length ≤ 3
        · rw [if_pos hle] at h
          simp at h
          have := ih tail htail
          subst h
          rw [linkAll]
          simp only [List.headD_cons]
          rw [← this]
        · rw [if_neg hle] at h; simp at h

theorem linkGroups_ok_bounds (gs : List Cell) :
    ∀ root, linkGroups gs = .ok root →
      (∀ g ∈ gs, g.bits.length ≤ 1023 ∧ g.refs.length ≤ 4) →
      ∀ g' ∈ linkAll gs, g'.bits.length ≤ 1023 ∧ g'.refs.length ≤ 4 := by
  induction gs with
  | nil => intro root _ _; simp [linkAll]
  | cons g gs ih =>
    intro root h hg
    cases gs with
    | nil =>
      intro g' hmem
      simp [linkAll] at hmem
      exact hmem ▸ hg g (by simp)
    | cons g₂ gs' =>
      intro g' hmem
      simp only [linkGroups, Except.bind] at h
      cases htail : linkGroups (g₂ :: gs') with
      | error e => rw [htail] at h; simp at h
      | ok tail =>
        rw [htail] at h
        simp at h
        by_cases hle : g.refs.length ≤ 3
        · rw [if_pos hle] at h
          simp at h
          rw [linkAll] at hmem
          rcases List.mem_cons.mp hmem with hmem | hmem
          · subst hmem
            refine ⟨by simpa using (hg g (by simp)).1, by simp; omega⟩
          · exact ih tail htail (fun x hx => hg x (by simp [hx])) g' hmem
        · rw [if_neg hle] at h; simp at h

theorem linkAll_head_eq (ch : List Cell) (part' : List (List Cell)) :
    (linkAll ((ch :: part').map mergeCells)).headD (.mk [] []) =
      .mk (mergeCells ch).bits ((mergeCells ch).refs ++ contRef part') := by
  cases part' with
  | nil => simp [linkAll, contRef, mergeCells]
  | cons ch₂ ps => simp [linkAll, contRef]

theorem decodeFields_step (f : Cell) (rest : List (Nat × Nat)) (B : List Bool)
    (R : List Cell) :
    decodeFields (cellShape f :: rest) ⟨f.bits ++ B, f.refs ++ R⟩ =
      (decodeFields rest
          (if rest ≠ [] ∧ B = [] ∧ R.length = 1 then loadCell (R.headD (.mk [] []))
           else ⟨B, R⟩)).map
        fun tailVals => (f.bits, f.refs) :: tailVals := by
  simp only [decodeFields, cellShape]
  rw [if_pos (⟨by simp, by simp⟩ : f.bits.length ≤ (f.bits ++ B).length ∧
    f.refs.length ≤ (f.refs ++ R).length)]
  simp [List.take_left, List.drop_left]

theorem decodeChainAux (part : List (List Cell)) :
    ∀ fs : List Cell, (part ≠ [] → fs ≠ []) →
      (∀ c ∈ fs, 1 ≤ c.bits.length) →
      (∀ ch ∈ part, ch ≠ [] ∧ ∀ c ∈ ch, 1 ≤ c.bits.length) →
      decodeFields ((fs ++ part.flatten).map cellShape)
          ⟨(fs.map Cell.bits).flatten, (fs.map Cell.refs).flatten ++ contRef part⟩
        = some ((fs ++ part.flatten).map cellData) := by
  induction part with
  | nil =>
    intro fs
    induction fs with
    | nil => intro _ _ _; simp [decodeFields, contRef]
    | cons f fs' ihf =>
      intro _ h1 _
      simp only [List.flatten_nil, List.append_nil, List.map_cons, List.flatten_cons,
        contRef_nil]
      rw [decodeFields_step]
      cases fs' with
      | nil =>
        rw [if_neg (by simp)]
        simp [decodeFields, cellData]
      | cons f₂ fs'' =>
        have hb₂ : f₂.bits ≠ [] := by
          have := h1 f₂ (by simp)
          exact List.ne_nil_of_length_pos (by omega)
        rw [if_neg (by simp [hb₂])]
        have ih := ihf (by simp) (fun c hc => h1 c (by simp [hc])) (by simp)
        simp only [List.flatten_nil, List.append_nil, List.map_cons, List.flatten_cons,
          contRef_nil] at ih
        simp only [List.map_cons, List.flatten_cons]
        rw [ih]
        simp [cellData]
  | cons ch part' ihp =>
    intro fs
    induction fs with
    | nil => intro h0 _ _; exact absurd rfl (h0 (by simp))
    | cons f fs' ihf =>
      intro _ h1 h2
      simp only [List.map_cons, List.flatten_cons, List.cons_append, List.append_assoc]
      rw [decodeFields_step]
      cases fs' with
      | nil =>
        have hch : ch ≠ [] := (h2 ch (by simp)).1
        have hrest : ((ch ++ part'.flatten).map cellShape) ≠ [] := by
          cases ch with
          | nil => exact absurd rfl hch
          | cons a l => simp
        rw [if_pos ⟨by simpa [List.flatten_cons] using hrest, rfl, by simp⟩]
        have hload : loadCell ((contRef (ch :: part')).headD (.mk [] [])) =
            ⟨(ch.map Cell.bits).flatten, (ch.map Cell.refs).flatten ++ contRef part'⟩ := by
          simp only [contRef_cons, List.headD_cons]
          rw [linkAll_head_eq]
          simp [loadCell]
        have ih := ihp ch (fun _ => hch) (h2 ch (by simp)).2
          (fun c hc => h2 c (by simp [hc]))
        simp only [List.flatten_nil, List.map_nil, List.nil_append, List.flatten_cons]
        rw [hload, ih]
        simp [cellData]
      | cons f₂ fs'' =>
        have hb₂ : f₂.bits ≠ [] := by
          have := h1 f₂ (by simp)
          exact List.ne_nil_of_length_pos (by omega)
        rw [if_neg (by simp [hb₂])]
        have ih := ihf (by simp) (fun c hc => h1 c (by simp [hc])) h2
        simp only [List.map_cons, List.flatten_cons, List.cons_append,
          List.append_assoc] at ih
        simp only [List.map_cons, List.flatten_cons, List.cons_append,
          List.append_assoc]
        rw [ih]
        simp [cellData]

/-- C1 (amended): for every sequence of builder cells, each within the cell
primitive bounds and carrying at least one data bit, a successful
`pack_cells_into_chain` produces a chain whose every physical cell has at
most 1023 data bits and at most 4 references, and schema-driven decoding of
the chain (following the forward-reference rule) recovers the original
field sequence in its original order. -/
theorem pack_cells_into_chain_bounds_roundtrip (cells : List Cell) (root : Cell)
    (hv : ∀ c ∈ cells, 1 ≤ c.bits.length ∧ c.bits.length ≤ 1023 ∧ c.refs.length ≤ 4)
    (hp : pack_cells_into_chain cells = .ok root) :
    (∀ g ∈ linkAll ((packPartition cells).map mergeCells),
        g.bits.length ≤ 1023 ∧ g.refs.length ≤ 4) ∧
      decodeFields (cells.map cellShape) (loadCell root) = some (cells.map cellData) := by
  cases cells with
  | nil =>
    simp only [pack_cells_into_chain, packPartition, List.map_nil, linkGroups] at hp
    simp only [Except.ok.injEq] at hp
    subst hp
    simp [packPartition, linkAll, decodeFields, loadCell]
  | cons c cs =>
    have hvb : ∀ x ∈ c :: cs, x.bits.length ≤ 1023 ∧ x.refs.length ≤ 4 :=
      fun x hx => ⟨(hv x hx).2.1, (hv x hx).2.2⟩
    have hpart : packPartition (c :: cs) = packPartitionGo [c] c cs := rfl
    have hflat0 : (packPartitionGo [c] c cs).flatten = c :: cs := by
      simpa using packPartitionGo_flatten cs [c] c
    have hne : ∀ ch ∈ packPartitionGo [c] c cs, ch ≠ [] :=
      packPartitionGo_chunks_ne_nil cs [c] c (by simp)
    have hgb : ∀ ch ∈ packPartitionGo [c] c cs,
        (mergeCells ch).bits.length ≤ 1023 ∧ (mergeCells ch).refs.length ≤ 4 :=
      packPartitionGo_bounds cs [c] c (mergeCells_singleton c).symm
        (by simpa [mergeCells_singleton] using (hvb c (by simp)).1)
        (by simpa [mergeCells_singleton] using (hvb c (by simp)).2)
        (fun x hx => hvb x (by simp [hx]))
    have hgb' : ∀ g ∈ (packPartitionGo [c] c cs).map mergeCells,
        g.bits.length ≤ 1023 ∧ g.refs.length ≤ 4 := by
      intro g hg
      rcases List.mem_map.mp hg with ⟨ch, hch, rfl⟩
      exact hgb ch hch
    have hp' : linkGroups ((packPartitionGo [c] c cs).map mergeCells) = .ok root := hp
    have hroot := linkGroups_ok_head _ root hp'
    have hbounds := linkGroups_ok_bounds _ root hp' hgb'
    refine ⟨by simpa [hpart] using hbounds, ?_⟩
    cases hcase : packPartitionGo [c] c cs with
    | nil => exact absurd hcase (packPartitionGo_ne_nil cs [c] c)
    | cons ch₁ part₁ =>
      have hflat : ch₁ ++ part₁.flatten = c :: cs := by
        rw [← List.flatten_cons, ← hcase, hflat0]
      have hmemflat : ∀ ch x, ch ∈ ch₁ :: part₁ → x ∈ ch → x ∈ c :: cs := by
        intro ch x hch hx
        rw [← hflat0, hcase]
        exact List.mem_flatten.mpr ⟨ch, hch, hx⟩
      have hdec := decodeChainAux part₁ ch₁
        (fun _ => hne ch₁ (by rw [hcase]; simp))
        (fun x hx => (hv x (hmemflat ch₁ x (by simp) hx)).1)
        (fun ch hch => ⟨hne ch (by rw [hcase]; simp [hch]),
          fun x hx => (hv x (hmemflat ch x (by simp [hch]) hx)).1⟩)
      rw [hflat] at hdec
      have hroot' : root = .mk (mergeCells ch₁).bits
          ((mergeCells ch₁).refs ++ contRef part₁) := by
        rw [hroot, hcase, linkAll_head_eq]
      rw [hroot']
      simpa [loadCell] using hdec

/-- Concrete input for the counterexample to C1 as stated: a field cell with
no data bits following one whose data ends exactly at the cell boundary of
the merged cell. -/
def cexCells : List Cell :=
  [.mk [true, false, true, false, true, false, true, false] [],
   .mk [] [.mk [] []]]

/-- Root cell that `pack_cells_into_chain` produces for `cexCells`: the two
field cells merge into one physical cell. -/
def cexRoot : Cell :=
  .mk [true, false, true, false, true, false, true, false] [.mk [] []]

/-- C1 as stated is false: both input builder cells respect the 1023-bit /
4-reference bounds, packing succeeds, yet decoding the resulting chain under
the forward-reference rule does not recover the original field sequence (the
trailing zero-bit field's payload reference is mistaken for a chaining
reference, and decoding fails). -/
theorem pack_cells_into_chain_claim_cex :
    (∀ c ∈ cexCells, c.bits.length ≤ 1023 ∧ c.refs.length ≤ 4) ∧
      pack_cells_into_chain cexCells = .ok cexRoot ∧
      decodeFields (cexCells.map cellShape) (loadCell cexRoot) ≠
        some (cexCells.map cellData) := by
  refine ⟨?_, rfl, ?_⟩
  · intro c hc
    simp only [cexCells, List.mem_cons, List.mem_singleton, List.not_mem_nil] at hc
    rcases hc with rfl | rfl | h
    · simp
    · simp
    · cases h
  · intro h
    have : (none : Option (List (List Bool × List Cell))) =
        some (cexCells.map cellData) := h
    cases this

/-- The parameter-type descriptors of Abi.hpp (`Param` and its subclasses,
lines 29-430): a closed tagged family; each variant carries the `name_`
field of the base class plus its variant-specific fields. -/
inductive Param where
  | uint (name : String) (size : Nat)
  | int (name : String) (size : Nat)
  | bool (name : String)
  | tuple (name : String) (items : List Param)
  | array (name : String) (param : Param)
  | fixedArray (name : String) (param : Param) (size : Nat)
  | cell (name : String)
  | map (name : String) (key : Param) (value : Param)
  | address (name : String)
  | bytes (name : String)
  | fixedBytes (name : String) (size : Nat)
  | gram (name : String)
  | time (name : String)
  | expire (name : String)
  | publicKey (name : String)

/-- `ParamTuple::type_signature` (Abi.hpp:157-172) builds the string by
appending a comma and each item's signature, then overwriting the first
character with an opening parenthesis; this models that first-character
overwrite. -/
def setParen : String → String
  | ⟨[]⟩ => ⟨[]⟩
  | ⟨_ :: cs⟩ => ⟨'(' :: cs⟩

mutual

/-- `type_signature` of every Param variant, translated from the inline
bodies in Abi.hpp (lines 86, 102, 127, 157-172, 200, 220, 244, 273, 297,
319, 332, 356, 378, 405, 427). -/
def type_signature : Param → String
  | .uint _ size => "uint" ++ toString size
  | .int _ size => "int" ++ toString size
  | .bool _ => "bool"
  | .tuple _ items =>
    match items with
    | [] => "()"
    | _ :: _ => setParen (commaPrefixed items) ++ ")"
  | .array _ p => type_signature p ++ "[]"
  | .fixedArray _ p size => type_signature p ++ "[" ++ toString size ++ "]"
  | .cell _ => "cell"
  | .map _ k v => "map(" ++ type_signature k ++ "," ++ type_signature v ++ ")"
  | .address _ => "address"
  | .bytes _ => "bytes"
  | .fixedBytes _ size => "fixedbytes" ++ toString size
  | .gram _ => "gram"
  | .time _ => "time"
  | .expire _ => "expire"
  | .publicKey _ => "pubkey"

/-- The accumulation loop of `ParamTuple::type_signature`: one comma plus
one item signature per item, in order. -/
def commaPrefixed : List Param → String
  | [] => ""
  | p :: ps => "," ++ type_signature p ++ commaPrefixed ps

end

mutual

/-- The type-signature grammar exactly as the spec states it (§6): `uintN`,
`intN`, `bool`, parenthesized comma-joined item signatures for tuples with
the empty tuple giving an empty pair of parentheses, `t` plus empty
brackets for arrays, `t` plus bracketed `N` for fixed arrays, `map(k,v)`,
and the remaining literals. -/
def specTypeSignature : Param → String
  | .uint _ size => "uint" ++ toString size
  | .int _ size => "int" ++ toString size
  | .bool _ => "bool"
  | .tuple _ items => "(" ++ specJoin items ++ ")"
  | .array _ p => specTypeSignature p ++ "[]"
  | .fixedArray _ p size => specTypeSignature p ++ "[" ++ toString size ++ "]"
  | .cell _ => "cell"
  | .map _ k v => "map(" ++ specTypeSignature k ++ "," ++ specTypeSignature v ++ ")"
  | .address _ => "address"
  | .bytes _ => "bytes"
  | .fixedBytes _ size => "fixedbytes" ++ toString size
  | .gram _ => "gram"
  | .time _ => "time"
  | .expire _ => "expire"
  | .publicKey _ => "pubkey"

/-- Comma-joined item signatures, per the spec's grammar. -/
def specJoin : List Param → String
  | [] => ""
  | [p] => specTypeSignature p
  | p :: ps => specTypeSignature p ++ "," ++ specJoin ps

end

/-- `Param::bit_len` (Abi.hpp:39): the base class returns 0, and only
`ParamUint` (line 87) and `ParamInt` (line 103) override it; in particular
`ParamBool` (lines 120-130) does not. -/
def bit_len : Param → Nat
  | .uint _ size => size
  | .int _ size => size
  | _ => 0

/-- The runtime value variants of Abi.hpp (`Value` and its subclasses):
each carries the `ParamRef` it was constructed against plus its payload.
The C++ payload types are modelled as: `td::BigInt256`/`td::RefInt256` as
unbounded integers, `td::uint64`/`uint32_t` as naturals, byte strings as
lists of naturals, `block::StdAddress` as workchain plus account id,
`td::Ref<vm::Cell>` (possibly null) as an optional cell, and the optional
`td::SecureString` public key as an optional byte list. -/
inductive Value where
  | int (param : Param) (value : Int)
  | bool (param : Param) (value : Bool)
  | tuple (param : Param) (values : List Value)
  | cell (param : Param) (value : Option Cell)
  | map (param : Param) (values : List (Value × Value))
  | address (param : Param) (workchain : Int) (addr : Nat)
  | bytes (param : Param) (value : List Nat)
  | gram (param : Param) (value : Int)
  | time (param : Param) (value : Nat)
  | expire (param : Param) (value : Nat)
  | publicKey (param : Param) (value : Option (List Nat))

/-- The `param_` field of a Value (Abi.hpp:53). -/
def Value.param : Value → Param
  | .int p _ => p
  | .bool p _ => p
  | .tuple p _ => p
  | .cell p _ => p
  | .map p _ => p
  | .address p _ _ => p
  | .bytes p _ => p
  | .gram p _ => p
  | .time p _ => p
  | .expire p _ => p
  | .publicKey p _ => p

/-- `Value::check_type` (Abi.hpp:54): string equality of the two type
signatures. -/
def check_type (v : Value) (expected : Param) : Bool :=
  type_signature v.param == type_signature expected

/-- The error of `Param::default_value` (Abi.hpp:40), returned by every
variant that does not override the base implementation. -/
def noDefaultMsg : String := "type does not have default value and must be explicitly defined"

mutual

/-- `default_value` of every Param variant, translated from the inline
bodies in Abi.hpp (lines 40, 88, 104, 128, 173-182, 245, 298, 320, 333,
357, 379-384, 406, 428).  `ParamArray`, `ParamFixedArray` and `ParamMap`
do not override the base implementation and fail.  `ParamTime` reads the
wall clock; the current time in milliseconds is passed as the `now`
argument. -/
def default_value (now : Nat) : Param → Except String Value
  | .uint name size => .ok (.int (.uint name size) 0)
  | .int name size => .ok (.int (.int name size) 0)
  | .bool name => .ok (.bool (.bool name) false)
  | .tuple name items =>
    (default_values now items).map fun vs => .tuple (.tuple name items) vs
  | .array _ _ => .error noDefaultMsg
  | .fixedArray _ _ _ => .error noDefaultMsg
  | .cell name => .ok (.cell (.cell name) none)
  | .map _ _ _ => .error noDefaultMsg
  | .address name => .ok (.address (.address name) 0 0)
  | .bytes name => .ok (.bytes (.bytes name) [])
  | .fixedBytes name size => .ok (.bytes (.fixedBytes name size) (List.replicate size 0))
  | .gram name => .ok (.gram (.gram name) 0)
  | .time name => .ok (.time (.time name) now)
  | .expire name => .ok (.expire (.expire name) (2 ^ 32 - 1))
  | .publicKey name => .ok (.publicKey (.publicKey name) none)

/-- The item loop of `ParamTuple::default_value` (Abi.hpp:173-182): each
item's default in order, the first failure propagating. -/
def default_values (now : Nat) : List Param → Except String (List Value)
  | [] => .ok []
  | p :: ps =>
    (default_value now p).bind fun v =>
      (default_values now ps).map fun vs => v :: vs

end

/-- Modelled from the spec (§4.4, `encode_header`; body absent from src): a
required header field absent from the caller's header mapping is filled
from its Param's default value, or fails if no default exists. -/
def fill_header_field (now : Nat) (supplied : Option Value) (p : Param) : Except String Value :=
  match supplied with
  | some v => .ok v
  | none => default_value now p

/-- The `AccountState` lifecycle enumeration (Abi.hpp:524-530). -/
inductive AccountState where
  | empty
  | uninit
  | frozen
  | active
  | unknown

/-- `to_string(AccountState)` (Abi.hpp:532-546): the switch maps `empty` to
the same literal as the default branch, which is what `unknown` reaches. -/
def to_string : AccountState → String
  | .empty => "unknown"
  | .uninit => "account_uninit"
  | .frozen => "account_frozen"
  | .active => "account_active"
  | .unknown => "unknown"

theorem setParen_comma (s : String) : setParen ("," ++ s) = "(" ++ s := rfl

mutual

/-- The source's tuple construction agrees with the spec grammar on every
variant, by mutual structural recursion. -/
def tsEqAux : ∀ p : Param, type_signature p = specTypeSignature p
  | .uint _ _ => rfl
  | .int _ _ => rfl
  | .bool _ => rfl
  | .tuple _ items => by
    cases items with
    | nil => rfl
    | cons p ps =>
      show setParen (commaPrefixed (p :: ps)) ++ ")" = "(" ++ specJoin (p :: ps) ++ ")"
      rw [tsJoinAux (p :: ps) (by simp), setParen_comma]
  | .array _ p => by
    show type_signature p ++ "[]" = specTypeSignature p ++ "[]"
    rw [tsEqAux p]
  | .fixedArray _ p size => by
    show type_signature p ++ "[" ++ toString size ++ "]" =
      specTypeSignature p ++ "[" ++ toString size ++ "]"
    rw [tsEqAux p]
  | .cell _ => rfl
  | .map _ k v => by
    show "map(" ++ type_signature k ++ "," ++ type_signature v ++ ")" =
      "map(" ++ specTypeSignature k ++ "," ++ specTypeSignature v ++ ")"
    rw [tsEqAux k, tsEqAux v]
  | .address _ => rfl
  | .bytes _ => rfl
  | .fixedBytes _ _ => rfl
  | .gram _ => rfl
  | .time _ => rfl
  | .expire _ => rfl
  | .publicKey _ => rfl

/-- The accumulation loop produces one leading comma plus the spec's
comma-join on nonempty item lists. -/
def tsJoinAux : ∀ ps : List Param, ps ≠ [] → commaPrefixed ps = "," ++ specJoin ps
  | [], h => absurd rfl h
  | [p], _ => by
    show "," ++ type_signature p ++ "" = "," ++ specJoin [p]
    rw [String.append_empty, tsEqAux p]
    rfl
  | p :: q :: qs, _ => by
    show "," ++ type_signature p ++ commaPrefixed (q :: qs) = "," ++ specJoin (p :: q :: qs)
    rw [tsJoinAux (q :: qs) (by simp), tsEqAux p]
    rw [show specJoin (p :: q :: qs) = specTypeSignature p ++ "," ++ specJoin (q :: qs)
        from rfl]
    rw [String.append_assoc, String.append_assoc]

end

/-- C4: for every Param variant, including arbitrarily nested composites,
`type_signature` returns exactly the string prescribed by the spec's
type-signature grammar. -/
theorem type_signature_grammar (p : Param) : type_signature p = specTypeSignature p :=
  tsEqAux p

/-- Counterexample to C5 as stated: Bool is a fixed-width scalar variant of
declared width one bit, yet `bit_len` on a Bool Param returns the
meaningless value 0 (ParamBool never overrides the base `bit_len`), not the
declared width. -/
theorem bit_len_bool_cex : bit_len (.bool "flag") = 0 ∧ bit_len (.bool "flag") ≠ 1 :=
  ⟨rfl, by decide⟩

/-- C5 (amended): `bit_len` equals the declared width exactly for the Uint
and Int variants and returns the meaningless value zero for Bool and every
variable-length or composite variant. -/
theorem bit_len_fixed_width :
    (∀ name size, bit_len (.uint name size) = size) ∧
    (∀ name size, bit_len (.int name size) = size) ∧
    (∀ name, bit_len (.bool name) = 0) ∧
    (∀ name items, bit_len (.tuple name items) = 0) ∧
    (∀ name p, bit_len (.array name p) = 0) ∧
    (∀ name p size, bit_len (.fixedArray name p size) = 0) ∧
    (∀ name, bit_len (.cell name) = 0) ∧
    (∀ name k v, bit_len (.map name k v) = 0) ∧
    (∀ name, bit_len (.address name) = 0) ∧
    (∀ name, bit_len (.bytes name) = 0) ∧
    (∀ name size, bit_len (.fixedBytes name size) = 0) ∧
    (∀ name, bit_len (.gram name) = 0) ∧
    (∀ name, bit_len (.time name) = 0) ∧
    (∀ name, bit_len (.expire name) = 0) ∧
    (∀ name, bit_len (.publicKey name) = 0) :=
  ⟨fun _ _ => rfl, fun _ _ => rfl, fun _ => rfl, fun _ _ => rfl, fun _ _ => rfl,
    fun _ _ _ => rfl, fun _ => rfl, fun _ _ _ => rfl, fun _ => rfl, fun _ => rfl,
    fun _ _ => rfl, fun _ => rfl, fun _ => rfl, fun _ => rfl, fun _ => rfl⟩

/-- C6: `check_type` returns true exactly when the type signature of the
value's bound Param equals the type signature of the Param it is checked
against, as strings. -/
theorem check_type_iff_signature_eq (v : Value) (p : Param) :
    check_type v p = true ↔ type_signature v.param = type_signature p := by
  simp [check_type]

theorem default_values_ok_iff (now : Nat) (items : List Param) :
    (default_values now items).isOk = true ↔
      ∀ it ∈ items, (default_value now it).isOk = true := by
  induction items with
  | nil => simp [default_values, Except.isOk, Except.toBool]
  | cons p ps ih =>
    simp only [default_values]
    cases hp : default_value now p with
    | error e =>
      constructor
      · intro h
        simp [Except.bind, Except.isOk, Except.toBool] at h
      · intro h
        have hcontra := h p (by simp)
        rw [hp] at hcontra
        simp [Except.isOk, Except.toBool] at hcontra
    | ok v =>
      cases hps : default_values now ps with
      | error e =>
        rw [hps] at ih
        constructor
        · intro h
          simp [Except.bind, Except.map, Except.isOk, Except.toBool] at h
        · intro h
          have hall : ∀ it ∈ ps, (default_value now it).isOk = true :=
            fun it hit => h it (by simp [hit])
          have hok := ih.mpr hall
          simp [Except.isOk, Except.toBool] at hok
      | ok vs =>
        rw [hps] at ih
        constructor
        · intro _ it hit
          rcases List.mem_cons.mp hit with rfl | hit'
          · rw [hp]; simp [Except.isOk, Except.toBool]
          · exact ih.mp (by simp [Except.isOk, Except.toBool]) it hit'
        · intro _
          simp [Except.bind, Except.map, Except.isOk, Except.toBool]

theorem default_values_forall₂ (now : Nat) (items : List Param) :
    ∀ vs, default_values now items = .ok vs →
      List.Forall₂ (fun it v => default_value now it = .ok v) items vs := by
  induction items with
  | nil => intro vs h; simp [default_values] at h; simp [← h]
  | cons p ps ih =>
    intro vs h
    simp only [default_values] at h
    cases hp : default_value now p with
    | error e => rw [hp] at h; simp [Except.bind] at h
    | ok v =>
      rw [hp] at h
      cases hps : default_values now ps with
      | error e => rw [hps] at h; simp [Except.bind, Except.map] at h
      | ok ws =>
        rw [hps] at h
        simp [Except.bind, Except.map] at h
        rw [← h]
        exact List.Forall₂.cons hp (ih ws hps)

theorem default_value_param (now : Nat) (p : Param) :
    ∀ v, default_value now p = .ok v → v.param = p := by
  intro v h
  cases p <;> simp [default_value] at h <;> simp [← h, Value.param]
  case tuple name items =>
    cases hvs : default_values now items with
    | error e => rw [hvs] at h; simp [Except.map] at h
    | ok vs =>
      rw [hvs] at h
      simp [Except.map] at h
      simp [← h, Value.param]

/-- C7: every Param variant's `default_value` either succeeds with a value
bound to that very Param (hence well-typed for it) or fails with the base
"no default" error; Array, FixedArray and Map inherit the base error, a
Tuple's default is the ordered tuple of its items' defaults and fails
exactly when some item's default fails, and the scalar defaults are:
Uint/Int zero, Bool false, Gram zero, Bytes empty, FixedBytes n zero
bytes, PublicKey absent. -/
theorem default_value_spec :
    (∀ now name p, default_value now (.array name p) = .error noDefaultMsg) ∧
    (∀ now name p size, default_value now (.fixedArray name p size) = .error noDefaultMsg) ∧
    (∀ now name k v, default_value now (.map name k v) = .error noDefaultMsg) ∧
    (∀ now name items, (default_value now (.tuple name items)).isOk = true ↔
        ∀ it ∈ items, (default_value now it).isOk = true) ∧
    (∀ now name items vs,
        default_value now (.tuple name items) = .ok (.tuple (.tuple name items) vs) →
        List.Forall₂ (fun it v => default_value now it = .ok v) items vs) ∧
    (∀ now name size, default_value now (.uint name size) = .ok (.int (.uint name size) 0)) ∧
    (∀ now name size, default_value now (.int name size) = .ok (.int (.int name size) 0)) ∧
    (∀ now name, default_value now (.bool name) = .ok (.bool (.bool name) false)) ∧
    (∀ now name, default_value now (.gram name) = .ok (.gram (.gram name) 0)) ∧
    (∀ now name, default_value now (.bytes name) = .ok (.bytes (.bytes name) [])) ∧
    (∀ now name size, default_value now (.fixedBytes name size) =
        .ok (.bytes (.fixedBytes name size) (List.replicate size 0))) ∧
    (∀ now name, default_value now (.publicKey name) =
        .ok (.publicKey (.publicKey name) none)) ∧
    (∀ now p v, default_value now p = .ok v → check_type v p = true) := by
  refine ⟨fun _ _ _ => rfl, fun _ _ _ _ => rfl, fun _ _ _ _ => rfl, ?_, ?_,
    fun _ _ _ => rfl, fun _ _ _ => rfl, fun _ _ => rfl, fun _ _ => rfl,
    fun _ _ => rfl, fun _ _ _ => rfl, fun _ _ => rfl, ?_⟩
  · intro now name items
    rw [show default_value now (.tuple name items) =
        (default_values now items).map fun vs => .tuple (.tuple name items) vs from rfl]
    rw [← default_values_ok_iff now items]
    cases default_values now items <;> simp [Except.isOk, Except.toBool, Except.map]
  · intro now name items vs h
    rw [show default_value now (.tuple name items) =
        (default_values now items).map fun vs => .tuple (.tuple name items) vs from rfl]
      at h
    cases hvs : default_values now items with
    | error e => rw [hvs] at h; simp [Except.map] at h
    | ok ws =>
      rw [hvs] at h
      simp [Except.map] at h
      obtain rfl := h
      exact default_values_forall₂ now items _ hvs
  · intro now p v h
    have := default_value_param now p v h
    simp [check_type, this]

/-- Witness for C7 at concrete inputs: a tuple of a uint8 and a bool gets
the ordered default (0, false); an array Param has no default; the
defaults are well-typed. -/
theorem default_value_spec_witness :
    default_value 0 (.array "a" (.bool "b")) = .error noDefaultMsg ∧
      ((default_value 0 (.tuple "t" [.uint "x" 8, .bool "y"])).isOk = true ↔
        ∀ it ∈ [Param.uint "x" 8, Param.bool "y"], (default_value 0 it).isOk = true) ∧
      List.Forall₂ (fun it v => default_value 0 it = .ok v)
        [Param.uint "x" 8, Param.bool "y"]
        [Value.int (.uint "x" 8) 0, Value.bool (.bool "y") false] ∧
      check_type (.bool (.bool "y") false) (.bool "y") = true := by
  refine ⟨default_value_spec.1 0 "a" (.bool "b"), default_value_spec.2.2.2.1 0 "t" _, ?_, ?_⟩
  · exact default_value_spec.2.2.2.2.1 0 "t" [Param.uint "x" 8, Param.bool "y"]
      [Value.int (.uint "x" 8) 0, Value.bool (.bool "y") false] rfl
  · exact default_value_spec.2.2.2.2.2.2.2.2.2.2.2.2 0 (.bool "y")
      (.bool (.bool "y") false) rfl

/-- C8: the default of an Expire Param always succeeds with the maximum
representable 32-bit unsigned value, and filling a header field whose
caller supplies no expire value from the Param default therefore yields
that maximum. -/
theorem expire_default_max :
    (∀ now name, default_value now (.expire name) =
        .ok (.expire (.expire name) (2 ^ 32 - 1))) ∧
    (∀ now name, fill_header_field now none (.expire name) =
        .ok (.expire (.expire name) (2 ^ 32 - 1))) :=
  ⟨fun _ _ => rfl, fun _ _ => rfl⟩

/-- C10: `to_string` maps both the `empty` and the `unknown` account state
to the same string, while `uninit`, `frozen` and `active` map to three
distinct dedicated strings. -/
theorem account_state_to_string :
    to_string .empty = "unknown" ∧ to_string .unknown = "unknown" ∧
      to_string .empty = to_string .unknown ∧
      to_string .uninit = "account_uninit" ∧
      to_string .frozen = "account_frozen" ∧
      to_string .active = "account_active" ∧
      to_string .uninit ≠ to_string .frozen ∧
      to_string .uninit ≠ to_string .active ∧
      to_string .frozen ≠ to_string .active ∧
      to_string .empty ≠ to_string .uninit ∧
      to_string .empty ≠ to_string .frozen ∧
      to_string .empty ≠ to_string .active := by
  refine ⟨rfl, rfl, rfl, rfl, rfl, rfl, ?_, ?_, ?_, ?_, ?_, ?_⟩ <;> decide

/-- Modelled from the spec (§4.2): big-endian encoding of a value into
exactly `n` bits (most significant bit first). -/
def uintEnc : Nat → Nat → List Bool
  | 0, _ => []
  | n + 1, v => uintEnc n (v / 2) ++ [decide (v % 2 = 1)]

/-- Big-endian accumulator loop of the fixed-width decoder. -/
def uintDecGo : Nat → Nat → List Bool → Option (Nat × List Bool)
  | acc, 0, bs => some (acc, bs)
  | _, _ + 1, [] => none
  | acc, n + 1, b :: bs => uintDecGo (acc * 2 + b.toNat) n bs

/-- Modelled from the spec (§4.2): reads exactly `n` bits from the cursor,
failing if fewer remain. -/
def uintDec (n : Nat) (bs : List Bool) : Option (Nat × List Bool) :=
  uintDecGo 0 n bs

/-- Modelled from the spec (§4.2): big-endian two's-complement encoding of
a signed value into exactly `n` bits. -/
def intEnc (n : Nat) (v : Int) : List Bool :=
  uintEnc n (v % 2 ^ n).toNat

/-- Modelled from the spec (§4.2): reads `n` bits and reinterprets the top
bit as the sign. -/
def intDec (n : Nat) (bs : List Bool) : Option (Int × List Bool) :=
  (uintDec n bs).map fun p =>
    (if 2 ^ (n - 1) ≤ p.1 then (p.1 : Int) - 2 ^ n else (p.1 : Int), p.2)

/-- Number of bytes of the minimal big-endian representation of a Gram
magnitude; zero takes zero bytes (spec §4.2). -/
def gramByteLen (v : Nat) : Nat :=
  if h : v = 0 then 0 else gramByteLen (v / 256) + 1
termination_by v
decreasing_by exact Nat.div_lt_self (Nat.pos_of_ne_zero h) (by decide)

/-- Byte sequence to bit string, each byte as 8 big-endian bits. -/
def bytesToBits (bs : List Nat) : List Bool :=
  (bs.map (uintEnc 8)).flatten

/-- Bit string back to bytes, eight bits at a time; fails on a trailing
group of fewer than eight bits.  The fuel argument bounds the number of
bytes and is instantiated with the bit count. -/
def bitsToBytesGo : Nat → List Bool → Option (List Nat)
  | _, [] => some []
  | 0, _ :: _ => none
  | fuel + 1, b :: bs =>
    (uintDec 8 (b :: bs)).bind fun p => (bitsToBytesGo fuel p.2).map fun t => p.1 :: t

def bitsToBytes (bs : List Bool) : Option (List Nat) :=
  bitsToBytesGo bs.length bs

/-- Modelled from the spec (§4.2, §4.3): a byte sequence is stored by
chaining into one or more child cells once it exceeds the remaining cell
capacity; each chain cell holds up to 127 whole bytes (1016 of the 1023
available bits) and one forward reference to the rest. -/
def buildBytesChain (bs : List Nat) : Cell :=
  if bs.length ≤ 127 then .mk (bytesToBits bs) []
  else .mk (bytesToBits (bs.take 127)) [buildBytesChain (bs.drop 127)]
termination_by bs.length
decreasing_by simp; omega

/-- Reads a byte chain cell back into the byte sequence. -/
def decodeBytesChain : Cell → Option (List Nat)
  | .mk bits [] => bitsToBytes bits
  | .mk bits [c] =>
    (bitsToBytes bits).bind fun h => (decodeBytesChain c).map fun t => h ++ t
  | _ => none

/-- The scalar type descriptors of claim C2. -/
inductive ScalarTy where
  | uint (n : Nat)
  | int (n : Nat)
  | bool
  | gram
  | time
  | expire
  | address
  | bytes
  | fixedBytes (n : Nat)
  | publicKey

/-- The scalar runtime values of claim C2, with the payload models of the
corresponding Value subclasses. -/
inductive ScalarVal where
  | uint (v : Nat)
  | int (v : Int)
  | bool (b : Bool)
  | gram (v : Nat)
  | time (v : Nat)
  | expire (v : Nat)
  | address (workchain : Int) (addr : Nat)
  | bytes (bs : List Nat)
  | fixedBytes (bs : List Nat)
  | publicKey (key : Option Nat)

/-- The standard-address discriminator bits: the `addr_std` tag `10`
followed by a clear anycast bit (spec §4.2: "a short discriminator
identifying the addressing mode"). -/
def addrStdTag : List Bool := [true, false, false]

/-- The declared value range of each scalar variant (spec §4.2): unsigned
range for Uint, two's-complement range for Int (widths start at one bit),
the 15-byte length-prefix capacity for Gram, 64/32 bits for Time/Expire,
an 8-bit workchain and 256-bit account id for Address, byte values below
256 for Bytes with the declared length for FixedBytes, and a 256-bit
optional public key. -/
def scalarInRange : ScalarTy → ScalarVal → Bool
  | .uint n, .uint v => decide (v < 2 ^ n)
  | .int n, .int v =>
    decide (1 ≤ n) && decide (-(2 ^ (n - 1) : Int) ≤ v) && decide (v < 2 ^ (n - 1))
  | .bool, .bool _ => true
  | .gram, .gram v => decide (v < 2 ^ 120)
  | .time, .time v => decide (v < 2 ^ 64)
  | .expire, .expire v => decide (v < 2 ^ 32)
  | .address, .address wc a =>
    decide (-128 ≤ wc) && decide (wc < 128) && decide (a < 2 ^ 256)
  | .bytes, .bytes bs => bs.all fun b => decide (b < 256)
  | .fixedBytes n, .fixedBytes bs =>
    decide (bs.length = n) && bs.all fun b => decide (b < 256)
  | .publicKey, .publicKey none => true
  | .publicKey, .publicKey (some k) => decide (k < 2 ^ 256)
  | _, _ => false

/-- Modelled from the spec (§4.2): the per-variant `serialize` bodies
(declared in Abi.hpp but absent from src).  Each scalar value becomes a
bit string plus reference list: Uint/Int as `n` big-endian bits, Bool as
one bit, Gram as a 4-bit byte count followed by that many bytes, Time and
Expire as 64/32 bits, Address as the standard discriminator plus 8-bit
workchain plus 256-bit account id, Bytes/FixedBytes as one reference to a
byte chain, PublicKey as a presence flag optionally followed by 256
bits. -/
def encode_scalar : ScalarTy → ScalarVal → Option (List Bool × List Cell)
  | .uint n, .uint v => some (uintEnc n v, [])
  | .int n, .int v => some (intEnc n v, [])
  | .bool, .bool b => some ([b], [])
  | .gram, .gram v =>
    some (uintEnc 4 (gramByteLen v) ++ uintEnc (8 * gramByteLen v) v, [])
  | .time, .time v => some (uintEnc 64 v, [])
  | .expire, .expire v => some (uintEnc 32 v, [])
  | .address, .address wc a => some (addrStdTag ++ intEnc 8 wc ++ uintEnc 256 a, [])
  | .bytes, .bytes bs => some ([], [buildBytesChain bs])
  | .fixedBytes _, .fixedBytes bs => some ([], [buildBytesChain bs])
  | .publicKey, .publicKey none => some ([false], [])
  | .publicKey, .publicKey (some k) => some (true :: uintEnc 256 k, [])
  | _, _ => none

/-- Modelled from the spec (§4.2): the per-variant `deserialize` bodies
(declared in Abi.hpp but absent from src), reading from a bit cursor and a
reference cursor; each variant fails when fewer bits remain than it needs
or, for Address, on an unrecognized discriminator. -/
def decode_scalar : ScalarTy → List Bool → List Cell → Option (ScalarVal × List Bool × List Cell)
  | .uint n, bits, refs => (uintDec n bits).map fun p => (.uint p.1, p.2, refs)
  | .int n, bits, refs => (intDec n bits).map fun p => (.int p.1, p.2, refs)
  | .bool, b :: bits, refs => some (.bool b, bits, refs)
  | .bool, [], _ => none
  | .gram, bits, refs =>
    (uintDec 4 bits).bind fun p =>
      (uintDec (8 * p.1) p.2).map fun q => (.gram q.1, q.2, refs)
  | .time, bits, refs => (uintDec 64 bits).map fun p => (.time p.1, p.2, refs)
  | .expire, bits, refs => (uintDec 32 bits).map fun p => (.expire p.1, p.2, refs)
  | .address, true :: false :: false :: bits, refs =>
    (intDec 8 bits).bind fun p =>
      (uintDec 256 p.2).map fun q => (.address p.1 q.1, q.2, refs)
  | .address, _, _ => none
  | .bytes, bits, c :: refs =>
    (decodeBytesChain c).map fun bs => (.bytes bs, bits, refs)
  | .bytes, _, [] => none
  | .fixedBytes n, bits, c :: refs =>
    (decodeBytesChain c).bind fun bs =>
      if bs.length = n then some (.fixedBytes bs, bits, refs) else none
  | .fixedBytes _, _, [] => none
  | .publicKey, false :: bits, refs => some (.publicKey none, bits, refs)
  | .publicKey, true :: bits, refs =>
    (uintDec 256 bits).map fun p => (.publicKey (some p.1), p.2, refs)
  | .publicKey, [], _ => none

theorem uintEnc_length (n : Nat) : ∀ v, (uintEnc n v).length = n := by
  induction n with
  | zero => intro v; rfl
  | succ n ih => intro v; simp [uintEnc, ih]

theorem uintDecGo_append (xs : List Bool) :
    ∀ (acc : Nat) (rest : List Bool),
      uintDecGo acc xs.length (xs ++ rest) =
        some (xs.foldl (fun a b => a * 2 + b.toNat) acc, rest) := by
  induction xs with
  | nil => intro acc rest; rfl
  | cons b xs ih => intro acc rest; simp [uintDecGo, ih]

theorem mod_two_pow_succ (v n : Nat) :
    v % 2 ^ (n + 1) = 2 * (v / 2 % 2 ^ n) + v % 2 := by
  rw [pow_succ, mul_comm ((2 : Nat) ^ n) 2, Nat.mod_mul]
  omega

theorem foldl_uintEnc (n : Nat) :
    ∀ v acc : Nat,
      (uintEnc n v).foldl (fun a b => a * 2 + b.toNat) acc = acc * 2 ^ n + v % 2 ^ n := by
  induction n with
  | zero => intro v acc; simp [uintEnc, Nat.mod_one]
  | succ n ih =>
    intro v acc
    rw [show uintEnc (n + 1) v = uintEnc n (v / 2) ++ [decide (v % 2 = 1)] from rfl]
    rw [List.foldl_append, ih (v / 2) acc]
    rw [mod_two_pow_succ]
    rcases Nat.mod_two_eq_zero_or_one v with h2 | h2 <;>
      simp [h2, List.foldl, pow_succ] <;> ring

theorem uintDec_enc (n v : Nat) (rest : List Bool) (h : v < 2 ^ n) :
    uintDec n (uintEnc n v ++ rest) = some (v, rest) := by
  have happ := uintDecGo_append (uintEnc n v) 0 rest
  rw [uintEnc_length n v, foldl_uintEnc n v 0] at happ
  simpa [uintDec, Nat.mod_eq_of_lt h] using happ

theorem intDec_enc (n : Nat) (v : Int) (rest : List Bool)
    (h1 : 1 ≤ n) (h2 : -(2 ^ (n - 1) : Int) ≤ v) (h3 : v < 2 ^ (n - 1)) :
    intDec n (intEnc n v ++ rest) = some (v, rest) := by
  have hn : n - 1 + 1 = n := Nat.succ_pred_eq_of_pos h1
  have h2n : (2 : Int) ^ n = 2 * 2 ^ (n - 1) := by
    conv_lhs => rw [← hn]
    rw [pow_succ]; ring
  have hMpos : (0 : Int) < 2 ^ (n - 1) := by positivity
  have hpow : (0 : Int) < 2 ^ n := by positivity
  have hcast : (((2 : Nat) ^ n : Nat) : Int) = (2 : Int) ^ n := by push_cast; ring
  have hcastM : (((2 : Nat) ^ (n - 1) : Nat) : Int) = (2 : Int) ^ (n - 1) := by
    push_cast; ring
  have hemod_nn : 0 ≤ v % 2 ^ n := Int.emod_nonneg v (by positivity)
  have hemod_lt : v % 2 ^ n < 2 ^ n := Int.emod_lt_of_pos v hpow
  have hu_int : ((v % 2 ^ n).toNat : Int) = v % 2 ^ n :=
    Int.toNat_of_nonneg hemod_nn
  have hu_lt : (v % 2 ^ n).toNat < 2 ^ n := by
    have : ((v % 2 ^ n).toNat : Int) < ((2 ^ n : Nat) : Int) := by
      rw [hu_int, hcast]; exact hemod_lt
    exact_mod_cast this
  rw [intEnc, intDec, uintDec_enc n _ rest hu_lt]
  rw [Option.map_some']
  rcases le_or_lt 0 v with hv | hv
  · have hveq : v % 2 ^ n = v := Int.emod_eq_of_lt hv (by omega)
    have hcond : ¬ 2 ^ (n - 1) ≤ (v % 2 ^ n).toNat := by
      intro hcontra
      have : ((2 ^ (n - 1) : Nat) : Int) ≤ ((v % 2 ^ n).toNat : Int) := by
        exact_mod_cast hcontra
      rw [hu_int, hveq, hcastM] at this
      omega
    rw [if_neg hcond]
    have hval : ((v % 2 ^ n).toNat : Int) = v := by rw [hu_int, hveq]
    rw [hval]
  · have hveq : v % 2 ^ n = v + 2 ^ n := by
      have hshift : (v + 2 ^ n) % 2 ^ n = v % 2 ^ n := by
        conv_lhs => rw [show v + 2 ^ n = v + 2 ^ n * 1 by ring]
        exact Int.add_mul_emod_self_left v (2 ^ n) 1
      rw [← hshift]
      exact Int.emod_eq_of_lt (by omega) (by omega)
    have hcond : 2 ^ (n - 1) ≤ (v % 2 ^ n).toNat := by
      have : ((2 ^ (n - 1) : Nat) : Int) ≤ ((v % 2 ^ n).toNat : Int) := by
        rw [hu_int, hveq, hcastM]
        omega
      exact_mod_cast this
    rw [if_pos hcond]
    have hval : ((v % 2 ^ n).toNat : Int) - 2 ^ n = v := by
      rw [hu_int, hveq]; ring
    rw [hval]

theorem gramByteLen_le (k : Nat) : ∀ v, v < 256 ^ k → gramByteLen v ≤ k := by
  induction k with
  | zero =>
    intro v hv
    have : v = 0 := by simpa using hv
    simp [gramByteLen, this]
  | succ k ih =>
    intro v hv
    by_cases h0 : v = 0
    · simp [gramByteLen, h0]
    · rw [gramByteLen, dif_neg h0]
      have hdiv : v / 256 < 256 ^ k := by
        rw [Nat.div_lt_iff_lt_mul (by decide : 0 < 256)]
        rw [pow_succ] at hv
        exact hv
      have := ih (v / 256) hdiv
      omega

def lt_pow_gramByteLen : ∀ v : Nat, v < 256 ^ gramByteLen v
  | 0 => by simp [gramByteLen]
  | v + 1 => by
    rw [gramByteLen, dif_neg (Nat.succ_ne_zero v)]
    have ih := lt_pow_gramByteLen ((v + 1) / 256)
    rw [pow_succ]
    omega
termination_by v => v
decreasing_by exact Nat.div_lt_self (Nat.succ_pos v) (by decide)

theorem bytesToBits_nil : bytesToBits [] = [] := rfl

theorem bytesToBits_cons (b : Nat) (bs : List Nat) :
    bytesToBits (b :: bs) = uintEnc 8 b ++ bytesToBits bs := by
  simp [bytesToBits]

theorem bitsToBytesGo_bytesToBits (bs : List Nat) :
    ∀ fuel, bs.length ≤ fuel → (∀ b ∈ bs, b < 256) →
      bitsToBytesGo fuel (bytesToBits bs) = some bs := by
  induction bs with
  | nil => intro fuel _ _; cases fuel <;> rfl
  | cons b bs ih =>
    intro fuel hle hall
    cases fuel with
    | zero => simp at hle
    | succ fuel =>
      rw [bytesToBits_cons]
      rcases (show ∃ x xs, uintEnc 8 b = x :: xs by
        cases henc : uintEnc 8 b with
        | nil =>
          have := uintEnc_length 8 b
          rw [henc] at this
          simp at this
        | cons x xs => exact ⟨x, xs, rfl⟩) with ⟨x, xs, hxs⟩
      rw [hxs, List.cons_append]
      rw [show bitsToBytesGo (fuel + 1) (x :: (xs ++ bytesToBits bs)) =
        (uintDec 8 (x :: (xs ++ bytesToBits bs))).bind fun p =>
          (bitsToBytesGo fuel p.2).map fun t => p.1 :: t from rfl]
      rw [← List.cons_append, ← hxs]
      rw [uintDec_enc 8 b (bytesToBits bs) (by simpa using hall b (by simp))]
      have hih := ih fuel (by simpa using Nat.le_of_succ_le_succ hle)
        (fun x hx => hall x (by simp [hx]))
      simp [hih]

theorem bytesToBits_length (bs : List Nat) : (bytesToBits bs).length = 8 * bs.length := by
  induction bs with
  | nil => rfl
  | cons b t iht =>
    rw [bytesToBits_cons]
    simp [uintEnc_length, iht]
    omega

theorem bitsToBytes_bytesToBits (bs : List Nat) (hall : ∀ b ∈ bs, b < 256) :
    bitsToBytes (bytesToBits bs) = some bs := by
  apply bitsToBytesGo_bytesToBits bs _ _ hall
  rw [bytesToBits_length]
  omega

def decodeBytesChain_build : ∀ bs : List Nat, (∀ b ∈ bs, b < 256) →
    decodeBytesChain (buildBytesChain bs) = some bs
  | bs, hall => by
    by_cases h : bs.length ≤ 127
    · rw [buildBytesChain, if_pos h]
      exact bitsToBytes_bytesToBits bs hall
    · rw [buildBytesChain, if_neg h]
      rw [show decodeBytesChain
            (.mk (bytesToBits (bs.take 127)) [buildBytesChain (bs.drop 127)]) =
          (bitsToBytes (bytesToBits (bs.take 127))).bind fun hd =>
            (decodeBytesChain (buildBytesChain (bs.drop 127))).map fun t => hd ++ t
        from rfl]
      rw [bitsToBytes_bytesToBits (bs.take 127)
        (fun x hx => hall x (List.mem_of_mem_take hx))]
      rw [decodeBytesChain_build (bs.drop 127)
        (fun x hx => hall x (List.mem_of_mem_drop hx))]
      simp
termination_by bs => bs.length
decreasing_by simp; omega

theorem encode_scalar_uint (n w : Nat) :
    encode_scalar (.uint n) (.uint w) = some (uintEnc n w, []) := rfl

theorem encode_scalar_int (n : Nat) (w : Int) :
    encode_scalar (.int n) (.int w) = some (intEnc n w, []) := rfl

theorem encode_scalar_bool (b : Bool) :
    encode_scalar .bool (.bool b) = some ([b], []) := rfl

theorem encode_scalar_gram (w : Nat) :
    encode_scalar .gram (.gram w) =
      some (uintEnc 4 (gramByteLen w) ++ uintEnc (8 * gramByteLen w) w, []) := rfl

theorem encode_scalar_time (w : Nat) :
    encode_scalar .time (.time w) = some (uintEnc 64 w, []) := rfl

theorem encode_scalar_expire (w : Nat) :
    encode_scalar .expire (.expire w) = some (uintEnc 32 w, []) := rfl

theorem encode_scalar_address (wc : Int) (a : Nat) :
    encode_scalar .address (.address wc a) =
      some (addrStdTag ++ intEnc 8 wc ++ uintEnc 256 a, []) := rfl

theorem encode_scalar_bytes (bs : List Nat) :
    encode_scalar .bytes (.bytes bs) = some ([], [buildBytesChain bs]) := rfl

theorem encode_scalar_fixedBytes (n : Nat) (bs : List Nat) :
    encode_scalar (.fixedBytes n) (.fixedBytes bs) =
      some ([], [buildBytesChain bs]) := rfl

theorem encode_scalar_publicKey_none :
    encode_scalar .publicKey (.publicKey none) = some ([false], []) := rfl

theorem encode_scalar_publicKey_some (k : Nat) :
    encode_scalar .publicKey (.publicKey (some k)) =
      some (true :: uintEnc 256 k, []) := rfl

theorem decode_scalar_uint (n : Nat) (bits : List Bool) (refs : List Cell) :
    decode_scalar (.uint n) bits refs =
      (uintDec n bits).map fun p => (ScalarVal.uint p.1, p.2, refs) := rfl

theorem decode_scalar_int (n : Nat) (bits : List Bool) (refs : List Cell) :
    decode_scalar (.int n) bits refs =
      (intDec n bits).map fun p => (ScalarVal.int p.1, p.2, refs) := rfl

theorem decode_scalar_bool_cons (b : Bool) (bits : List Bool) (refs : List Cell) :
    decode_scalar .bool (b :: bits) refs = some (.bool b, bits, refs) := rfl

theorem decode_scalar_gram (bits : List Bool) (refs : List Cell) :
    decode_scalar .gram bits refs =
      (uintDec 4 bits).bind fun p =>
        (uintDec (8 * p.1) p.2).map fun q => (ScalarVal.gram q.1, q.2, refs) := rfl

theorem decode_scalar_time (bits : List Bool) (refs : List Cell) :
    decode_scalar .time bits refs =
      (uintDec 64 bits).map fun p => (ScalarVal.time p.1, p.2, refs) := rfl

theorem decode_scalar_expire (bits : List Bool) (refs : List Cell) :
    decode_scalar .expire bits refs =
      (uintDec 32 bits).map fun p => (ScalarVal.expire p.1, p.2, refs) := rfl

theorem decode_scalar_address_std (bits : List Bool) (refs : List Cell) :
    decode_scalar .address (true :: false :: false :: bits) refs =
      (intDec 8 bits).bind fun p =>
        (uintDec 256 p.2).map fun q => (ScalarVal.address p.1 q.1, q.2, refs) := rfl

theorem decode_scalar_bytes_cons (bits : List Bool) (c : Cell) (refs : List Cell) :
    decode_scalar .bytes bits (c :: refs) =
      (decodeBytesChain c).map fun bs => (ScalarVal.bytes bs, bits, refs) := rfl

theorem decode_scalar_fixedBytes_cons (n : Nat) (bits : List Bool) (c : Cell)
    (refs : List Cell) :
    decode_scalar (.fixedBytes n) bits (c :: refs) =
      (decodeBytesChain c).bind fun bs =>
        if bs.length = n then some (ScalarVal.fixedBytes bs, bits, refs) else none := rfl

theorem decode_scalar_publicKey_false (bits : List Bool) (refs : List Cell) :
    decode_scalar .publicKey (false :: bits) refs =
      some (.publicKey none, bits, refs) := rfl

theorem decode_scalar_publicKey_true (bits : List Bool) (refs : List Cell) :
    decode_scalar .publicKey (true :: bits) refs =
      (uintDec 256 bits).map fun p =>
        (ScalarVal.publicKey (some p.1), p.2, refs) := rfl

/-- C2: for every scalar variant and every in-range value, deserializing
the serialized form of the value (with arbitrary following bit/reference
stream content) yields the value back together with the untouched rest of
the stream; in particular serialization always succeeds on in-range
values. -/
theorem scalar_codec_roundtrip (t : ScalarTy) (v : ScalarVal)
    (hr : scalarInRange t v = true) (restB : List Bool) (restR : List Cell) :
    (encode_scalar t v).bind
        (fun p => decode_scalar t (p.1 ++ restB) (p.2 ++ restR)) =
      some (v, restB, restR) := by
  cases t <;> cases v <;>
    try (simp only [scalarInRange] at hr; exact Bool.noConfusion hr)
  case uint.uint =>
    rename_i n w
    have hw : w < 2 ^ n := by simpa [scalarInRange] using hr
    rw [encode_scalar_uint, Option.some_bind]
    rw [decode_scalar_uint, uintDec_enc n w restB hw]
    simp
  case int.int =>
    rename_i n w
    have hw : 1 ≤ n ∧ -(2 ^ (n - 1) : Int) ≤ w ∧ w < 2 ^ (n - 1) := by
      simpa [scalarInRange, and_assoc] using hr
    rw [encode_scalar_int, Option.some_bind]
    rw [decode_scalar_int, intDec_enc n w restB hw.1 hw.2.1 hw.2.2]
    simp
  case bool.bool =>
    rename_i b
    rw [encode_scalar_bool, Option.some_bind]
    simp only [List.singleton_append, List.nil_append]
    rw [decode_scalar_bool_cons]
  case gram.gram =>
    rename_i w
    have hw : w < 2 ^ 120 := by simpa [scalarInRange] using hr
    have h256 : ∀ k : Nat, (256 : Nat) ^ k = 2 ^ (8 * k) := by
      intro k
      rw [show (256 : Nat) = 2 ^ 8 from rfl, ← pow_mul]
    have hlen : gramByteLen w ≤ 15 := by
      refine gramByteLen_le 15 w ?_
      rw [h256 15]
      omega
    have hlen16 : gramByteLen w < 2 ^ 4 := by
      have h16 : (2 : Nat) ^ 4 = 16 := by norm_num
      omega
    have hv : w < 2 ^ (8 * gramByteLen w) := by
      have := lt_pow_gramByteLen w
      rw [h256 (gramByteLen w)] at this
      exact this
    rw [encode_scalar_gram, Option.some_bind]
    rw [decode_scalar_gram, List.append_assoc,
      uintDec_enc 4 (gramByteLen w) _ hlen16, Option.some_bind,
      uintDec_enc (8 * gramByteLen w) w restB hv]
    simp
  case time.time =>
    rename_i w
    have hw : w < 2 ^ 64 := by simpa [scalarInRange] using hr
    rw [encode_scalar_time, Option.some_bind]
    rw [decode_scalar_time, uintDec_enc 64 w restB hw]
    simp
  case expire.expire =>
    rename_i w
    have hw : w < 2 ^ 32 := by simpa [scalarInRange] using hr
    rw [encode_scalar_expire, Option.some_bind]
    rw [decode_scalar_expire, uintDec_enc 32 w restB hw]
    simp
  case address.address =>
    rename_i wc a
    have hw : -128 ≤ wc ∧ wc < 128 ∧ a < 2 ^ 256 := by
      simpa [scalarInRange, and_assoc] using hr
    rw [encode_scalar_address, Option.some_bind]
    simp only [addrStdTag, List.append_assoc, List.cons_append, List.nil_append]
    rw [decode_scalar_address_std,
      intDec_enc 8 wc _ (by decide) (by norm_num; exact hw.1)
        (by norm_num; exact hw.2.1),
      Option.some_bind, uintDec_enc 256 a restB hw.2.2]
    simp
  case bytes.bytes =>
    rename_i bs
    have hall : ∀ b ∈ bs, b < 256 := by simpa [scalarInRange] using hr
    rw [encode_scalar_bytes, Option.some_bind]
    simp only [List.singleton_append, List.nil_append]
    rw [decode_scalar_bytes_cons, decodeBytesChain_build bs hall]
    simp
  case fixedBytes.fixedBytes =>
    rename_i n bs
    have hw : bs.length = n ∧ ∀ b ∈ bs, b < 256 := by
      simpa [scalarInRange, and_assoc] using hr
    rw [encode_scalar_fixedBytes, Option.some_bind]
    simp only [List.singleton_append, List.nil_append]
    rw [decode_scalar_fixedBytes_cons, decodeBytesChain_build bs hw.2,
      Option.some_bind, if_pos hw.1]
  case publicKey.publicKey =>
    rename_i key
    cases key with
    | none =>
      rw [encode_scalar_publicKey_none, Option.some_bind]
      simp only [List.singleton_append, List.nil_append]
      rw [decode_scalar_publicKey_false]
    | some k =>
      have hk : k < 2 ^ 256 := by simpa [scalarInRange] using hr
      rw [encode_scalar_publicKey_some, Option.some_bind]
      simp only [List.cons_append, List.nil_append]
      rw [decode_scalar_publicKey_true, uintDec_enc 256 k restB hk]
      simp

/-- Witness for C2 at a concrete input: the uint8 value 250 round-trips
(spec Scenario A). -/
theorem scalar_codec_roundtrip_witness :
    scalarInRange (.uint 8) (.uint 250) = true ∧
      (encode_scalar (.uint 8) (.uint 250)).bind
          (fun p => decode_scalar (.uint 8) (p.1 ++ []) (p.2 ++ [])) =
        some (.uint 250, [], []) :=
  ⟨by decide, scalar_codec_roundtrip (.uint 8) (.uint 250) (by decide) [] []⟩

/-- Modelled from the spec (§4.4): the digest that `compute_function_id`
applies to the signature string is SHA-256 in the real system (the body,
declared at Abi.hpp:471, is absent from src); it is modelled as a fixed
pure byte-mixing function, since the claim concerns only that the
identifier is a deterministic 32-bit prefix of the digest of the string. -/
def modelDigest (input : List Nat) : List Nat :=
  (List.range 32).map fun i =>
    (input.foldl (fun a b => a * 131 + b + i) (i * 7 + 13)) % 256

/-- Modelled from the spec (§4.4): `compute_function_id` hashes the
signature string and takes the first 32 bits of the digest as the
selector. -/
def compute_function_id (s : String) : Nat :=
  ((((modelDigest (s.data.map Char.toNat)).getD 0 0 * 256 +
      (modelDigest (s.data.map Char.toNat)).getD 1 0) * 256 +
      (modelDigest (s.data.map Char.toNat)).getD 2 0) * 256 +
      (modelDigest (s.data.map Char.toNat)).getD 3 0)

theorem getD_lt_of_all_lt (l : List Nat) :
    ∀ i, (∀ x ∈ l, x < 256) → l.getD i 0 < 256 := by
  induction l with
  | nil => intro i _; simp [List.getD]
  | cons a l ih =>
    intro i hall
    cases i with
    | zero => simpa using hall a (by simp)
    | succ i =>
      simp only [List.getD_cons_succ]
      exact ih i fun x hx => hall x (by simp [hx])

theorem modelDigest_getD_lt (input : List Nat) (i : Nat) :
    (modelDigest input).getD i 0 < 256 := by
  refine getD_lt_of_all_lt _ i fun x hx => ?_
  rcases List.mem_map.mp hx with ⟨j, _, hj⟩
  rw [← hj]
  exact Nat.mod_lt _ (by decide)

/-- C3: `compute_function_id` is a pure function of the signature string —
equal strings give equal identifiers, no other input or state is involved
(the embedding is stateless), and the result always fits in 32 bits. -/
theorem compute_function_id_deterministic (s t : String) (h : s = t) :
    compute_function_id s = compute_function_id t ∧ compute_function_id s < 2 ^ 32 := by
  subst h
  refine ⟨rfl, ?_⟩
  have h0 := modelDigest_getD_lt (s.data.map Char.toNat) 0
  have h1 := modelDigest_getD_lt (s.data.map Char.toNat) 1
  have h2 := modelDigest_getD_lt (s.data.map Char.toNat) 2
  have h3 := modelDigest_getD_lt (s.data.map Char.toNat) 3
  rw [compute_function_id]
  have hp : (2 : Nat) ^ 32 = 4294967296 := by norm_num
  omega

/-- Witness for C3 at a concrete signature string. -/
theorem compute_function_id_deterministic_witness :
    "getCustodians()(uint256[])v2" = "getCustodians()(uint256[])v2" ∧
      (compute_function_id "getCustodians()(uint256[])v2" =
          compute_function_id "getCustodians()(uint256[])v2" ∧
        compute_function_id "getCustodians()(uint256[])v2" < 2 ^ 32) :=
  ⟨rfl, compute_function_id_deterministic _ _ rfl⟩

/-- Modelled from the spec (§4.4): `fill_signature` (declared Abi.hpp:432;
body absent from src) rewrites the reserved leading 512-bit signature
region of a previously built unsigned root cell with the supplied
signature bits, leaving everything else in place. -/
def fill_signature (sig : List Bool) (c : Cell) : Except String Cell :=
  if sig.length = 512 ∧ 512 ≤ c.bits.length then
    .ok (.mk (sig ++ c.bits.drop 512) c.refs)
  else .error "invalid signature or missing reserved signature region"

/-- Modelled from the spec: the signing hash of a cell (SHA-256-based in
the real system) as a pure function of the cell's bits and reference
count. -/
def cellHash (c : Cell) : Nat :=
  c.bits.foldl (fun a b => (a * 2 + b.toNat) % 2 ^ 256) (c.refs.length + 1)

/-- A root cell with its reserved 512-bit signature region zeroed. -/
def zeroSignRegion (c : Cell) : Cell :=
  .mk (List.replicate 512 false ++ c.bits.drop 512) c.refs

/-- C9: filling the signature changes only the reserved 512-bit region —
bits outside it, the bit count and the references are untouched — and the
signing hash recomputed from the filled cell with the signature region
zeroed equals the hash of the original unsigned cell (whose reserved
region holds the zero pattern). -/
theorem fill_signature_frame (sig : List Bool) (c c' : Cell)
    (hlen : sig.length = 512)
    (hzero : c.bits.take 512 = List.replicate 512 false)
    (hfill : fill_signature sig c = .ok c') :
    c'.bits.drop 512 = c.bits.drop 512 ∧ c'.refs = c.refs ∧
      c'.bits.length = c.bits.length ∧
      cellHash (zeroSignRegion c') = cellHash c := by
  have hbits : 512 ≤ c.bits.length := by
    by_contra hcontra
    rw [fill_signature, if_neg (fun hc => hcontra hc.2)] at hfill
    exact Except.noConfusion hfill
  rw [fill_signature, if_pos ⟨hlen, hbits⟩] at hfill
  obtain rfl : c' = .mk (sig ++ c.bits.drop 512) c.refs := (Except.ok.inj hfill).symm
  have hdrop : (sig ++ c.bits.drop 512).drop 512 = c.bits.drop 512 := by
    rw [← hlen, List.drop_left]
  refine ⟨by simpa using hdrop, rfl, ?_, ?_⟩
  · simp [hlen]
    omega
  · have hzc : zeroSignRegion (.mk (sig ++ c.bits.drop 512) c.refs) = c := by
      rw [zeroSignRegion]
      simp only [Cell.bits_mk, Cell.refs_mk, hdrop]
      conv_rhs => rw [← Cell.eta c]
      rw [← hzero, List.take_append_drop]
    rw [hzc]

/-- Concrete unsigned root cell for the C9 witness: a zeroed signature
region followed by two payload bits. -/
def wSigCell : Cell := .mk (List.replicate 512 false ++ [true, true]) []

/-- Concrete signature bits for the C9 witness. -/
def wSig : List Bool := List.replicate 512 true

/-- Concrete filled cell for the C9 witness. -/
def wFilled : Cell := .mk (List.replicate 512 true ++ [true, true]) []

/-- Witness for C9 at a concrete cell and signature. -/
theorem fill_signature_frame_witness :
    (wSig.length = 512 ∧ wSigCell.bits.take 512 = List.replicate 512 false ∧
        fill_signature wSig wSigCell = .ok wFilled) ∧
      (wFilled.bits.drop 512 = wSigCell.bits.drop 512 ∧
        wFilled.refs = wSigCell.refs ∧
        wFilled.bits.length = wSigCell.bits.length ∧
        cellHash (zeroSignRegion wFilled) = cellHash wSigCell) := by
  have htake : wSigCell.bits.take 512 = List.replicate 512 false := by
    have := List.take_left (List.replicate 512 false) ([true, true] : List Bool)
    simpa [wSigCell] using this
  have hfill : fill_signature wSig wSigCell = .ok wFilled := by
    rw [fill_signature, if_pos ⟨by simp [wSig], by simp [wSigCell]⟩]
    have hdrop := List.drop_left (List.replicate 512 false) ([true, true] : List Bool)
    simp only [wSigCell, Cell.bits_mk, Cell.refs_mk, wSig, wFilled]
    rw [show ((List.replicate 512 false ++ [true, true] : List Bool).drop 512) = [true, true]
      by simpa using hdrop]
  exact ⟨⟨by simp [wSig], htake, hfill⟩,
    fill_signature_frame wSig wSigCell wFilled (by simp [wSig]) htake hfill⟩

/-- Concrete cells for the witness: two one-bit-plus fields that merge into
a single physical cell. -/
def wCells : List Cell := [.mk [true, false] [], .mk [true] []]

/-- Root produced for `wCells`. -/
def wRoot : Cell := .mk [true, false, true] []

/-- Witness for the amended C1 theorem at a concrete input. -/
theorem pack_cells_into_chain_bounds_roundtrip_witness :
    (∀ c ∈ wCells, 1 ≤ c.bits.length ∧ c.bits.length ≤ 1023 ∧ c.refs.length ≤ 4) ∧
      ((∀ g ∈ linkAll ((packPartition wCells).map mergeCells),
          g.bits.length ≤ 1023 ∧ g.refs.length ≤ 4) ∧
        decodeFields (wCells.map cellShape) (loadCell wRoot) =
          some (wCells.map cellData)) :=
  ⟨by decide, pack_cells_into_chain_bounds_roundtrip wCells wRoot (by decide) rfl⟩

end ftabi
